import Mathlib

/-!
Verification development for the brainfuckers interpreter (src/main.rs).

The Rust program is a four-stage pipeline: tokenize → optimize_opcodes →
parse → execute.  Each stage is embedded below as an executable Lean
function translated from the source:

* machine integers are modelled as Nat/Int with explicit wrapping
  (u8 arithmetic is mod 256, usize wrapping arithmetic is mod 2^64);
* Rust panics (stray brackets, out-of-bounds indexing, failed reads)
  are modelled as Except errors / Option.none;
* the in-place Vec surgery of optimize_opcodes (drain + insert at the
  cursor) is modelled with List.take / List.drop at the cursor index.
-/

namespace Brainfuckers

/-- The flat opcode type from src/main.rs (enum OpCode).  The u8 payloads of
Add/Sub are modelled as Nat kept below 256 by the code that builds them; the
i32 payload of Move is modelled as Int. -/
inductive OpCode where
  | Move : Int → OpCode
  | IncrementPointer : OpCode
  | DecrementPointer : OpCode
  | Increment : OpCode
  | Decrement : OpCode
  | Add : Nat → OpCode
  | Sub : Nat → OpCode
  | Write : OpCode
  | Read : OpCode
  | LoopBegin : OpCode
  | LoopEnd : OpCode
  | ResetCell : OpCode
  | ScanCells : Bool → OpCode
  | TapeState : OpCode
deriving DecidableEq

/-- The nested instruction type from src/main.rs (enum Instruction). -/
inductive Instruction where
  | Move : Int → Instruction
  | Add : Nat → Instruction
  | Sub : Nat → Instruction
  | Write : Instruction
  | Read : Instruction
  | Loop : List Instruction → Instruction
  | ResetCell : Instruction
  | ScanCells : Bool → Instruction
  | TapeState : Instruction

/-- One character of fn tokenize: the match on the nine recognized symbols;
every other character maps to none and is dropped. -/
def tokChar (c : Char) : Option OpCode :=
  if c = '>' then some OpCode.IncrementPointer
  else if c = '<' then some OpCode.DecrementPointer
  else if c = '+' then some OpCode.Increment
  else if c = '-' then some OpCode.Decrement
  else if c = '.' then some OpCode.Write
  else if c = ',' then some OpCode.Read
  else if c = '[' then some OpCode.LoopBegin
  else if c = ']' then some OpCode.LoopEnd
  else if c = '|' then some OpCode.TapeState
  else none

/-- fn tokenize: filter_map of tokChar over the source characters. -/
def tokenize (source : String) : List OpCode :=
  source.data.filterMap tokChar

/-- The run counter of the Increment/Decrement arm of fn optimize_opcodes:
count starts at 1 (a u8, hence each increment wraps mod 256) and the scan
walks the tail while elements equal the current opcode.  Returns the final
count together with how many tail elements were consumed. -/
def runScan (cur : OpCode) : List OpCode → Nat → Nat × Nat
  | x :: xs, count =>
      if x = cur then
        let r := runScan cur xs ((count + 1) % 256)
        (r.1, r.2 + 1)
      else (count, 0)
  | [], count => (count, 0)

/-- The signed-offset accumulation of the pointer-step arm of
fn optimize_opcodes: +1 per IncrementPointer, -1 per DecrementPointer,
stopping at the first other opcode.  Returns the net offset together with
how many elements were consumed. -/
def ptrScan : List OpCode → Int → Int × Nat
  | OpCode.IncrementPointer :: xs, off =>
      let r := ptrScan xs (off + 1)
      (r.1, r.2 + 1)
  | OpCode.DecrementPointer :: xs, off =>
      let r := ptrScan xs (off - 1)
      (r.1, r.2 + 1)
  | _, off => (off, 0)

/-- One iteration of the while-loop body of fn optimize_opcodes at cursor i
(excluding the final i += 1, which every arm of the Rust match reaches: the
returned index is the cursor for the next iteration).  Returns none exactly
when the body panics: in the ScanCells arm the direction argument
opcodes[i + 1] is read after opcodes.drain(i..i + 3) has already run, so the
access is out of bounds whenever fewer than two elements follow the LoopEnd. -/
def optStepAt (ops : List OpCode) (i : Nat) : Option (List OpCode × Nat) :=
  match ops[i]? with
  | some OpCode.LoopBegin =>
      if i + 2 < ops.length ∧
          (ops[i+1]? = some OpCode.Decrement ∨ ops[i+1]? = some OpCode.Increment) ∧
          ops[i+2]? = some OpCode.LoopEnd then
        some (ops.take i ++ OpCode.ResetCell :: ops.drop (i + 3), i + 1)
      else if i + 2 < ops.length ∧
          (ops[i+1]? = some OpCode.DecrementPointer ∨ ops[i+1]? = some OpCode.IncrementPointer) ∧
          ops[i+2]? = some OpCode.LoopEnd then
        let rest := ops.take i ++ ops.drop (i + 3)
        match rest[i+1]? with
        | some x =>
            some (rest.take i ++ OpCode.ScanCells (decide (x = OpCode.IncrementPointer)) :: rest.drop i,
              i + 1)
        | none => none
      else some (ops, i + 1)
  | some OpCode.Increment =>
      let r := runScan OpCode.Increment (ops.drop (i + 1)) 1
      some (ops.take i ++ OpCode.Add r.1 :: ops.drop (i + 1 + r.2), i + 1)
  | some OpCode.Decrement =>
      let r := runScan OpCode.Decrement (ops.drop (i + 1)) 1
      some (ops.take i ++ OpCode.Sub r.1 :: ops.drop (i + 1 + r.2), i + 1)
  | some OpCode.IncrementPointer | some OpCode.DecrementPointer =>
      let r := ptrScan (ops.drop i) 0
      if r.1 ≠ 0 then
        some (ops.take i ++ OpCode.Move r.1 :: ops.drop (i + r.2), i + 1)
      else some (ops, i + 1)
  | _ => some (ops, i + 1)

/-- The while-loop of fn optimize_opcodes.  The fuel parameter only bounds
the number of loop iterations so that the recursion is structural: the
cursor grows by exactly one per iteration and the list never grows, so
ops.length + 1 units of fuel (supplied by optimize_opcodes) can never be
exhausted; none therefore means the loop body panicked. -/
def optLoop : Nat → List OpCode → Nat → Option (List OpCode)
  | 0, _, _ => none
  | fuel + 1, ops, i =>
      if i < ops.length then
        match optStepAt ops i with
        | some (ops2, i2) => optLoop fuel ops2 i2
        | none => none
      else some ops

/-- fn optimize_opcodes: run the cursor loop from index 0. -/
def optimize_opcodes (ops : List OpCode) : Option (List OpCode) :=
  optLoop (ops.length + 1) ops 0

/-- The two panics of fn parse: a LoopEnd met while loop_stack == 0
(STRAY CLOSING BRACKET AT #i) and loop_stack nonzero at the end of the scan
(STRAY OPENING BRACKET AT #loop_start). -/
inductive PErr where
  | strayClose : Nat → PErr
  | strayOpen : Nat → PErr
deriving DecidableEq

/-- The body of fn parse: the for-loop over (i, op) carrying the program
built so far, loop_stack and loop_start; when a matching LoopEnd brings
loop_stack back to 0 the sub-slice opcodes[loop_start+1..i] is parsed
recursively and wrapped in a Loop. -/
def parseGo (full : List OpCode) (i : Nat) (prog : List Instruction)
    (stack : Nat) (start : Nat) : Except PErr (List Instruction) :=
  match h : full[i]? with
  | none =>
      if stack = 0 then Except.ok prog else Except.error (PErr.strayOpen start)
  | some op =>
      if stack = 0 then
        match op with
        | OpCode.Move off => parseGo full (i+1) (prog ++ [Instruction.Move off]) stack start
        | OpCode.Add c => parseGo full (i+1) (prog ++ [Instruction.Add c]) stack start
        | OpCode.Sub c => parseGo full (i+1) (prog ++ [Instruction.Sub c]) stack start
        | OpCode.Write => parseGo full (i+1) (prog ++ [Instruction.Write]) stack start
        | OpCode.Read => parseGo full (i+1) (prog ++ [Instruction.Read]) stack start
        | OpCode.ResetCell => parseGo full (i+1) (prog ++ [Instruction.ResetCell]) stack start
        | OpCode.ScanCells b => parseGo full (i+1) (prog ++ [Instruction.ScanCells b]) stack start
        | OpCode.LoopBegin => parseGo full (i+1) prog (stack + 1) i
        | OpCode.LoopEnd => Except.error (PErr.strayClose i)
        | OpCode.IncrementPointer => parseGo full (i+1) prog stack start
        | OpCode.DecrementPointer => parseGo full (i+1) prog stack start
        | OpCode.Increment => parseGo full (i+1) prog stack start
        | OpCode.Decrement => parseGo full (i+1) prog stack start
        | OpCode.TapeState => parseGo full (i+1) (prog ++ [Instruction.TapeState]) stack start
      else
        match op with
        | OpCode.LoopBegin => parseGo full (i+1) prog (stack + 1) start
        | OpCode.LoopEnd =>
            if stack = 1 then
              match parseGo ((full.drop (start + 1)).take (i - (start + 1))) 0 [] 0 0 with
              | Except.ok inner =>
                  parseGo full (i+1) (prog ++ [Instruction.Loop inner]) (stack - 1) start
              | Except.error e => Except.error e
            else parseGo full (i+1) prog (stack - 1) start
        | _ => parseGo full (i+1) prog stack start
termination_by (full.length, full.length - i)
decreasing_by
  all_goals
    first
    | · have hi : i < full.length := by
          by_contra hge
          rw [List.getElem?_eq_none (by omega)] at h
          exact Option.noConfusion h
        apply Prod.Lex.right
        omega
    | · have hi : i < full.length := by
          by_contra hge
          rw [List.getElem?_eq_none (by omega)] at h
          exact Option.noConfusion h
        apply Prod.Lex.left
        have h1 : ((full.drop (start + 1)).take (i - (start + 1))).length ≤
            full.length - (start + 1) := by
          simp [List.length_take, List.length_drop]
        omega

/-- fn parse: scan the whole sequence from index 0 with empty program,
loop_stack = 0 and loop_start = 0. -/
def parse (opcodes : List OpCode) : Except PErr (List Instruction) :=
  parseGo opcodes 0 [] 0 0

/-- The mutable state of fn execute.  The tape ([u8; 30000]) is a function
from indices to byte values (kept below 256 by every write); data_pointer is
a usize.  stdin is a list of pending input bytes, stdout a list of emitted
bytes, and each TapeState dump is recorded as the list of printed indices. -/
structure EState where
  tape : Nat → Nat
  ptr : Nat
  inp : List Nat
  out : List Nat
  dumps : List (List Nat)

/-- tape[p] = v (a single cell store). -/
def updateT (t : Nat → Nat) (p v : Nat) : Nat → Nat :=
  fun k => if k = p then v else t k

/-- u8::wrapping_add. -/
def u8add (a b : Nat) : Nat := (a + b) % 256

/-- u8::wrapping_sub, written for Nat: (a - b) mod 256. -/
def u8sub (a b : Nat) : Nat := (a + (256 - b % 256)) % 256

/-- 2^64, the modulus of usize wrapping arithmetic. -/
def USIZE : Nat := 2 ^ 64

/-- The Instruction::Move arm of fn execute: for a negative offset the code
computes data_pointer.wrapping_sub(offset.unsigned_abs()) % tape.len(), for
a non-negative one data_pointer.wrapping_add(offset as usize) % tape.len().
The usize wraparound (mod 2^64) happens before the % 30000. -/
def moveStep (p : Nat) (off : Int) : Nat :=
  if off < 0 then ((p + (USIZE - off.natAbs % USIZE)) % USIZE) % 30000
  else ((p + off.toNat) % USIZE) % 30000

/-- The forward while-loop of the Instruction::ScanCells(true) arm:
increment the pointer while the current cell is nonzero, with no modulo;
running past index 29999 makes the next tape read panic (none). -/
def scanF (t : Nat → Nat) (p : Nat) : Option Nat :=
  if p < 30000 then
    if t p ≠ 0 then scanF t (p + 1) else some p
  else none
termination_by 30000 - p
decreasing_by
  simp_wf
  omega

/-- The backward while-loop of the Instruction::ScanCells(false) arm:
decrement the pointer while the current cell is nonzero; decrementing the
usize pointer at 0 wraps to 2^64 - 1 and the next tape read panics (none). -/
def scanB (t : Nat → Nat) (p : Nat) : Option Nat :=
  if p < 30000 then
    if t p ≠ 0 then
      match p with
      | 0 => none
      | q + 1 => scanB t q
    else some p
  else none

/-- fn execute, walking an instruction list against the state.  The fuel
parameter makes the recursion structural and only cuts off genuinely
diverging loops; none is a panic (tape index out of range, failed stdin
read, a scan running off the tape) or fuel exhaustion.  The Loop arm is the
while-loop: run the body once, then re-test the same Loop instruction. -/
def execute : Nat → List Instruction → EState → Option EState
  | 0, _, _ => none
  | _ + 1, [], s => some s
  | fuel + 1, ins :: rest, s =>
      match ins with
      | Instruction.Move off => execute fuel rest { s with ptr := moveStep s.ptr off }
      | Instruction.Add c =>
          if s.ptr < 30000 then
            execute fuel rest { s with tape := updateT s.tape s.ptr (u8add (s.tape s.ptr) c) }
          else none
      | Instruction.Sub c =>
          if s.ptr < 30000 then
            execute fuel rest { s with tape := updateT s.tape s.ptr (u8sub (s.tape s.ptr) c) }
          else none
      | Instruction.ResetCell =>
          if s.ptr < 30000 then
            execute fuel rest { s with tape := updateT s.tape s.ptr 0 }
          else none
      | Instruction.ScanCells dir =>
          match (if dir then scanF s.tape s.ptr else scanB s.tape s.ptr) with
          | some p => execute fuel rest { s with ptr := p }
          | none => none
      | Instruction.Write =>
          if s.ptr < 30000 then
            execute fuel rest { s with out := s.out ++ [s.tape s.ptr] }
          else none
      | Instruction.Read =>
          match s.inp with
          | [] => none
          | b :: bs =>
              if s.ptr < 30000 then
                execute fuel rest { s with tape := updateT s.tape s.ptr (b % 256), inp := bs }
              else none
      | Instruction.Loop body =>
          if s.ptr < 30000 then
            if s.tape s.ptr ≠ 0 then
              match execute fuel body s with
              | some s2 => execute fuel (Instruction.Loop body :: rest) s2
              | none => none
            else execute fuel rest s
          else none
      | Instruction.TapeState =>
          let lastNZ := (List.range 30000).foldl (fun acc k => if s.tape k ≠ 0 then k + 1 else acc) 0
          execute fuel rest { s with dumps := s.dumps ++ [List.range lastNZ] }

/-- The all-zero initial state of fn main (tape zeroed, pointer 0), with a
given stdin. -/
def initState (inp : List Nat) : EState :=
  { tape := fun _ => 0, ptr := 0, inp := inp, out := [], dumps := [] }

/-- The some-branch of parseGo, restated as a standalone function of the
fetched opcode; only used to state the unfolding lemma parseGo_some. -/
def parseStep (full : List OpCode) (i : Nat) (prog : List Instruction)
    (stack : Nat) (start : Nat) (op : OpCode) : Except PErr (List Instruction) :=
  if stack = 0 then
    match op with
    | OpCode.Move off => parseGo full (i+1) (prog ++ [Instruction.Move off]) stack start
    | OpCode.Add c => parseGo full (i+1) (prog ++ [Instruction.Add c]) stack start
    | OpCode.Sub c => parseGo full (i+1) (prog ++ [Instruction.Sub c]) stack start
    | OpCode.Write => parseGo full (i+1) (prog ++ [Instruction.Write]) stack start
    | OpCode.Read => parseGo full (i+1) (prog ++ [Instruction.Read]) stack start
    | OpCode.ResetCell => parseGo full (i+1) (prog ++ [Instruction.ResetCell]) stack start
    | OpCode.ScanCells b => parseGo full (i+1) (prog ++ [Instruction.ScanCells b]) stack start
    | OpCode.LoopBegin => parseGo full (i+1) prog (stack + 1) i
    | OpCode.LoopEnd => Except.error (PErr.strayClose i)
    | OpCode.IncrementPointer => parseGo full (i+1) prog stack start
    | OpCode.DecrementPointer => parseGo full (i+1) prog stack start
    | OpCode.Increment => parseGo full (i+1) prog stack start
    | OpCode.Decrement => parseGo full (i+1) prog stack start
    | OpCode.TapeState => parseGo full (i+1) (prog ++ [Instruction.TapeState]) stack start
  else
    match op with
    | OpCode.LoopBegin => parseGo full (i+1) prog (stack + 1) start
    | OpCode.LoopEnd =>
        if stack = 1 then
          match parseGo ((full.drop (start + 1)).take (i - (start + 1))) 0 [] 0 0 with
          | Except.ok inner =>
              parseGo full (i+1) (prog ++ [Instruction.Loop inner]) (stack - 1) start
          | Except.error e => Except.error e
        else parseGo full (i+1) prog (stack - 1) start
    | _ => parseGo full (i+1) prog stack start

/-- Nesting-depth scan over an opcode sequence starting from depth d:
returns the final depth, or none as soon as a LoopEnd is met at depth 0. -/
def scanDepth (d : Nat) : List OpCode → Option Nat
  | [] => some d
  | OpCode.LoopBegin :: rest => scanDepth (d + 1) rest
  | OpCode.LoopEnd :: rest => if d = 0 then none else scanDepth (d - 1) rest
  | _ :: rest => scanDepth d rest

/-- A bracket-balanced opcode sequence: the depth scan never fails and ends
at depth 0. -/
def Balanced (ops : List OpCode) : Prop :=
  scanDepth 0 ops = some 0

instance (ops : List OpCode) : Decidable (Balanced ops) := by
  unfold Balanced
  infer_instance

/-- Modelled from the spec (§4.3): the bracket fault, if any, of an opcode
sequence, by a single forward scan with a nesting counter from position i.
A loop-end met while nesting is 0 is the unmatched-closing fault at its
position; each loop-begin met at nesting 0 records its position (so when the
scan ends with nonzero nesting, the recorded position is the outermost
unmatched loop-begin, reported as the unmatched-opening fault). -/
def scanFault (i stack start : Nat) : List OpCode → Option PErr
  | [] => if stack = 0 then none else some (PErr.strayOpen start)
  | OpCode.LoopBegin :: rest =>
      scanFault (i+1) (stack+1) (if stack = 0 then i else start) rest
  | OpCode.LoopEnd :: rest =>
      if stack = 0 then some (PErr.strayClose i) else scanFault (i+1) (stack-1) start rest
  | _ :: rest => scanFault (i+1) stack start rest

/-- The bracket fault of a whole opcode sequence, per the spec's words. -/
def specFault (ops : List OpCode) : Option PErr :=
  scanFault 0 0 0 ops

/-- The error component of a parse result. -/
def toErr : Except PErr (List Instruction) → Option PErr
  | Except.ok _ => none
  | Except.error e => some e

lemma parseGo_none {full : List OpCode} {i : Nat} (h : full[i]? = none)
    (prog : List Instruction) (stack start : Nat) :
    parseGo full i prog stack start =
      if stack = 0 then Except.ok prog else Except.error (PErr.strayOpen start) := by
  rw [parseGo.eq_def]
  split
  · rfl
  · rename_i heq
    rw [h] at heq
    exact Option.noConfusion heq

lemma parseGo_some {full : List OpCode} {i : Nat} {op : OpCode} (h : full[i]? = some op)
    (prog : List Instruction) (stack start : Nat) :
    parseGo full i prog stack start = parseStep full i prog stack start op := by
  rw [parseGo.eq_def]
  split
  · rename_i heq
    rw [h] at heq
    exact Option.noConfusion heq
  · rename_i op2 heq
    rw [h] at heq
    injection heq with e
    subst e
    cases op <;> rfl

/-- C2: for every initial pointer p and offset o, Move(o) is claimed to set
the pointer to (p + o) mod 30000 with mathematical modulus.  It does not:
at p = 0, o = -1 the code first wraps p - 1 around 2^64 (usize wrapping_sub)
and only then reduces mod 30000; since 2^64 is not a multiple of 30000 the
result is (2^64 - 1) mod 30000 = 21615, while the claimed mathematical
modulus gives 29999. -/
theorem move_negative_offset_bug :
    (execute 2 [Instruction.Move (-1)] (initState [])).map (fun s => s.ptr) = some 21615 ∧
    moveStep 0 (-1) = 21615 ∧
    ((0 + (-1) : Int)).emod 30000 = 29999 ∧
    (21615 : Nat) ≠ 29999 := by
  refine ⟨by decide, by decide, by decide, by decide⟩

/-- C3: the scan idiom is claimed to emit ScanCells with the direction of
the interior pointer-step.  It does not: the direction argument is read from
the post-drain vector, i.e. from the element two places after the LoopEnd.
On the tokenization of the source with the forward idiom followed by two
increments, the element read is Increment, so the emitted direction is
backward (false) although the interior step was IncrementPointer. -/
theorem scan_idiom_direction_bug :
    optimize_opcodes [OpCode.LoopBegin, OpCode.IncrementPointer, OpCode.LoopEnd,
        OpCode.Increment, OpCode.Increment] =
      some [OpCode.ScanCells false, OpCode.Add 2] ∧
    tokenize "[>]++" = [OpCode.LoopBegin, OpCode.IncrementPointer, OpCode.LoopEnd,
        OpCode.Increment, OpCode.Increment] ∧
    false ≠ true := by
  refine ⟨by decide, by decide, by decide⟩

/-- C6: a maximal pointer-step run with net offset zero is claimed to be
removed outright.  It is not: when the accumulated offset is 0 the code
changes nothing and merely advances the cursor one step into the run, so on
the two-opcode run forward-step, backward-step the first step survives and
the one-element suffix still collapses to Move(-1); the parser then drops
the surviving raw step, so the compiled program moves the pointer by -1
instead of 0. -/
theorem zero_offset_run_not_removed :
    optimize_opcodes [OpCode.IncrementPointer, OpCode.DecrementPointer] =
      some [OpCode.IncrementPointer, OpCode.Move (-1)] ∧
    parse [OpCode.IncrementPointer, OpCode.Move (-1)] = Except.ok [Instruction.Move (-1)] ∧
    [OpCode.IncrementPointer, OpCode.Move (-1)] ≠ ([] : List OpCode) := by
  refine ⟨by decide, ?_, by decide⟩
  simp only [parse]
  rw [parseGo_some rfl]
  show parseGo _ 1 [] 0 0 = _
  rw [parseGo_some rfl]
  show parseGo _ 2 [Instruction.Move (-1)] 0 0 = _
  rw [parseGo_none rfl]
  rfl

/-- C7 counterexample: after the ResetCell idiom replaces the window at
cursor 0, the next iteration examines index 1 (one past the replacement),
not index 0 as claimed. -/
theorem idiom_cursor_not_reexamined :
    optStepAt [OpCode.LoopBegin, OpCode.Decrement, OpCode.LoopEnd] 0 =
      some ([OpCode.ResetCell], 1) ∧
    (1 : Nat) ≠ 0 := by
  refine ⟨by decide, by decide⟩

/-- C7 as amended: whenever a three-operation idiom window (reset-cell, or
scan-cells with at least two elements after the LoopEnd) is replaced at
cursor i, the loop body returns the list with the window replaced by one
element at position i and advances the cursor to i + 1, the element
immediately after the replacement, so all following elements are still
examined while the replacement itself is not re-examined. -/
theorem idiom_replacement_advances_cursor (ops : List OpCode) (i : Nat)
    (hLB : ops[i]? = some OpCode.LoopBegin)
    (hLE : ops[i+2]? = some OpCode.LoopEnd)
    (hmid : ops[i+1]? = some OpCode.Decrement ∨ ops[i+1]? = some OpCode.Increment ∨
      ((ops[i+1]? = some OpCode.DecrementPointer ∨ ops[i+1]? = some OpCode.IncrementPointer) ∧
        i + 5 ≤ ops.length)) :
    ∃ r, optStepAt ops i = some (ops.take i ++ r :: ops.drop (i + 3), i + 1) := by
  have hlen2 : i + 2 < ops.length := (List.getElem?_eq_some.mp hLE).1
  rcases hmid with h1 | h1 | ⟨h1, hlong⟩
  · exact ⟨OpCode.ResetCell, by
      simp only [optStepAt, hLB]
      rw [if_pos ⟨hlen2, Or.inl h1, hLE⟩]⟩
  · exact ⟨OpCode.ResetCell, by
      simp only [optStepAt, hLB]
      rw [if_pos ⟨hlen2, Or.inr h1, hLE⟩]⟩
  · have hfst : ¬(i + 2 < ops.length ∧
        (ops[i+1]? = some OpCode.Decrement ∨ ops[i+1]? = some OpCode.Increment) ∧
        ops[i+2]? = some OpCode.LoopEnd) := by
      rintro ⟨-, hc, -⟩
      rcases h1 with h1 | h1 <;> rcases hc with hc | hc <;>
        · rw [h1] at hc
          exact Option.noConfusion hc (fun e => OpCode.noConfusion e)
    have hidx : i + 1 < (ops.take i ++ ops.drop (i + 3)).length := by
      rw [List.length_append, List.length_take, List.length_drop]
      omega
    refine ⟨OpCode.ScanCells
      (decide ((ops.take i ++ ops.drop (i + 3))[i+1] = OpCode.IncrementPointer)), ?_⟩
    simp only [optStepAt, hLB]
    rw [if_neg hfst, if_pos ⟨hlen2, h1, hLE⟩]
    rw [List.getElem?_eq_getElem hidx]
    have e1 : (ops.take i ++ ops.drop (i + 3)).take i = ops.take i := by
      rw [List.take_append_of_le_length (by rw [List.length_take]; omega), List.take_take]
      congr 1
      omega
    have e2 : (ops.take i ++ ops.drop (i + 3)).drop i = ops.drop (i + 3) := by
      rw [List.drop_append_of_le_length (by rw [List.length_take]; omega)]
      rw [show (ops.take i).drop i = [] from List.drop_eq_nil_of_le (by rw [List.length_take]; omega)]
      rfl
    rw [e1, e2]

/-- C7 witness: the amended statement at the concrete window loop-begin,
decrement, loop-end at cursor 0. -/
theorem idiom_replacement_advances_cursor_witness :
    ∃ r, optStepAt [OpCode.LoopBegin, OpCode.Decrement, OpCode.LoopEnd] 0 =
      some ([OpCode.LoopBegin, OpCode.Decrement, OpCode.LoopEnd].take 0 ++
        r :: [OpCode.LoopBegin, OpCode.Decrement, OpCode.LoopEnd].drop 3, 1) :=
  idiom_replacement_advances_cursor [OpCode.LoopBegin, OpCode.Decrement, OpCode.LoopEnd] 0
    (by decide) (by decide) (Or.inl (by decide))

/-- C10: whenever the scan idiom matches at cursor i with fewer than two
elements after the LoopEnd (length < i + 5), the loop body panics with an
out-of-bounds index (none): the direction is read from index i + 1 of the
already-drained vector, whose length is only length - 3 ≤ i + 1.  In
particular optimizing the tokenization of the source with just the forward
scan idiom panics. -/
theorem scan_idiom_short_tail_panics :
    (∀ (ops : List OpCode) (i : Nat),
        ops[i]? = some OpCode.LoopBegin →
        (ops[i+1]? = some OpCode.DecrementPointer ∨ ops[i+1]? = some OpCode.IncrementPointer) →
        ops[i+2]? = some OpCode.LoopEnd →
        ops.length < i + 5 →
        optStepAt ops i = none) ∧
    optimize_opcodes (tokenize "[>]") = none := by
  constructor
  · intro ops i h0 h1 h2 hshort
    have hlen2 : i + 2 < ops.length := (List.getElem?_eq_some.mp h2).1
    have hfst : ¬(i + 2 < ops.length ∧
        (ops[i+1]? = some OpCode.Decrement ∨ ops[i+1]? = some OpCode.Increment) ∧
        ops[i+2]? = some OpCode.LoopEnd) := by
      rintro ⟨-, hc, -⟩
      rcases h1 with h1 | h1 <;> rcases hc with hc | hc <;>
        · rw [h1] at hc
          exact Option.noConfusion hc (fun e => OpCode.noConfusion e)
    simp only [optStepAt, h0]
    rw [if_neg hfst, if_pos ⟨hlen2, h1, h2⟩]
    rw [List.getElem?_eq_none (by
      rw [List.length_append, List.length_take, List.length_drop]
      omega)]
  · decide

/-- C10 witness: the general statement at the concrete three-opcode
sequence of the forward scan idiom at cursor 0. -/
theorem scan_idiom_short_tail_panics_witness :
    optStepAt [OpCode.LoopBegin, OpCode.IncrementPointer, OpCode.LoopEnd] 0 = none :=
  scan_idiom_short_tail_panics.1 [OpCode.LoopBegin, OpCode.IncrementPointer, OpCode.LoopEnd] 0
    (by decide) (Or.inr (by decide)) (by decide) (by decide)

lemma runScan_replicate (c : OpCode) (m cnt : Nat) (hcnt : cnt < 256) :
    runScan c (List.replicate m c) cnt = ((cnt + m) % 256, m) := by
  induction m generalizing cnt with
  | zero => simp [runScan, Nat.mod_eq_of_lt hcnt]
  | succ m ih =>
      rw [List.replicate_succ]
      simp only [runScan, if_pos rfl]
      rw [ih ((cnt + 1) % 256) (Nat.mod_lt _ (by omega))]
      refine Prod.ext ?_ rfl
      show ((cnt + 1) % 256 + m) % 256 = (cnt + (m + 1)) % 256
      rw [Nat.mod_add_mod]
      congr 1
      omega

lemma optStepAt_inc {ops : List OpCode} {i : Nat} (h : ops[i]? = some OpCode.Increment) :
    optStepAt ops i =
      some (ops.take i ++
        OpCode.Add (runScan OpCode.Increment (ops.drop (i+1)) 1).1 ::
          ops.drop (i + 1 + (runScan OpCode.Increment (ops.drop (i+1)) 1).2), i + 1) := by
  simp only [optStepAt, h]

lemma optStepAt_dec {ops : List OpCode} {i : Nat} (h : ops[i]? = some OpCode.Decrement) :
    optStepAt ops i =
      some (ops.take i ++
        OpCode.Sub (runScan OpCode.Decrement (ops.drop (i+1)) 1).1 ::
          ops.drop (i + 1 + (runScan OpCode.Decrement (ops.drop (i+1)) 1).2), i + 1) := by
  simp only [optStepAt, h]

lemma optimize_replicate_inc (n : Nat) (hn : 1 ≤ n) :
    optimize_opcodes (List.replicate n OpCode.Increment) = some [OpCode.Add (n % 256)] := by
  obtain ⟨m, rfl⟩ : ∃ m, n = m + 1 := ⟨n - 1, by omega⟩
  unfold optimize_opcodes
  rw [List.length_replicate]
  have h0 : (List.replicate (m+1) OpCode.Increment)[0]? = some OpCode.Increment := by
    rw [List.replicate_succ]
    simp
  have hdrop : (List.replicate (m+1) OpCode.Increment).drop 1 = List.replicate m OpCode.Increment := by
    rw [List.replicate_succ]
    simp
  show optLoop (m + 1 + 1) (List.replicate (m+1) OpCode.Increment) 0 = _
  simp only [optLoop, List.length_replicate, show (0 < m + 1) = True by simp]
  simp only [if_true]
  rw [optStepAt_inc h0]
  simp only [Nat.zero_add, hdrop, runScan_replicate OpCode.Increment m 1 (by omega),
    List.take_zero, List.nil_append]
  rw [List.drop_eq_nil_of_le (by rw [List.length_replicate]; omega)]
  simp only [optLoop, List.length_cons, List.length_nil]
  rw [if_neg (by omega)]
  congr 3
  omega

lemma optimize_replicate_dec (n : Nat) (hn : 1 ≤ n) :
    optimize_opcodes (List.replicate n OpCode.Decrement) = some [OpCode.Sub (n % 256)] := by
  obtain ⟨m, rfl⟩ : ∃ m, n = m + 1 := ⟨n - 1, by omega⟩
  unfold optimize_opcodes
  rw [List.length_replicate]
  have h0 : (List.replicate (m+1) OpCode.Decrement)[0]? = some OpCode.Decrement := by
    rw [List.replicate_succ]
    simp
  have hdrop : (List.replicate (m+1) OpCode.Decrement).drop 1 = List.replicate m OpCode.Decrement := by
    rw [List.replicate_succ]
    simp
  show optLoop (m + 1 + 1) (List.replicate (m+1) OpCode.Decrement) 0 = _
  simp only [optLoop, List.length_replicate, show (0 < m + 1) = True by simp]
  simp only [if_true]
  rw [optStepAt_dec h0]
  simp only [Nat.zero_add, hdrop, runScan_replicate OpCode.Decrement m 1 (by omega),
    List.take_zero, List.nil_append]
  rw [List.drop_eq_nil_of_le (by rw [List.length_replicate]; omega)]
  simp only [optLoop, List.length_cons, List.length_nil]
  rw [if_neg (by omega)]
  congr 3
  omega

/-- C5: a run of n consecutive increments (decrements) collapses to a single
Add (Sub) whose u8 count is n mod 256, the parser translates it unchanged,
and executing it on an initially-zero cell leaves the cell holding n mod 256
(respectively (256 - n mod 256) mod 256). -/
theorem inc_dec_runs_collapse_mod256 (n : Nat) (hn : 1 ≤ n) :
    optimize_opcodes (List.replicate n OpCode.Increment) = some [OpCode.Add (n % 256)] ∧
    optimize_opcodes (List.replicate n OpCode.Decrement) = some [OpCode.Sub (n % 256)] ∧
    parse [OpCode.Add (n % 256)] = Except.ok [Instruction.Add (n % 256)] ∧
    parse [OpCode.Sub (n % 256)] = Except.ok [Instruction.Sub (n % 256)] ∧
    (execute 2 [Instruction.Add (n % 256)] (initState [])).map (fun s => s.tape 0) =
      some (n % 256) ∧
    (execute 2 [Instruction.Sub (n % 256)] (initState [])).map (fun s => s.tape 0) =
      some ((256 - n % 256) % 256) := by
  refine ⟨optimize_replicate_inc n hn, optimize_replicate_dec n hn, ?_, ?_, ?_, ?_⟩
  · simp only [parse]
    rw [parseGo_some rfl]
    show parseGo _ 1 [Instruction.Add (n % 256)] 0 0 = _
    rw [parseGo_none rfl]
    rfl
  · simp only [parse]
    rw [parseGo_some rfl]
    show parseGo _ 1 [Instruction.Sub (n % 256)] 0 0 = _
    rw [parseGo_none rfl]
    rfl
  · show some (u8add 0 (n % 256)) = some (n % 256)
    simp only [u8add]
    congr 1
    omega
  · show some (u8sub 0 (n % 256)) = some ((256 - n % 256) % 256)
    simp only [u8sub]
    congr 1
    omega

/-- C5 witness: the statement at n = 260, which exercises the mod-256 wrap
(260 mod 256 = 4). -/
theorem inc_dec_runs_collapse_mod256_witness :
    1 ≤ 260 ∧
    (optimize_opcodes (List.replicate 260 OpCode.Increment) = some [OpCode.Add (260 % 256)] ∧
    optimize_opcodes (List.replicate 260 OpCode.Decrement) = some [OpCode.Sub (260 % 256)] ∧
    parse [OpCode.Add (260 % 256)] = Except.ok [Instruction.Add (260 % 256)] ∧
    parse [OpCode.Sub (260 % 256)] = Except.ok [Instruction.Sub (260 % 256)] ∧
    (execute 2 [Instruction.Add (260 % 256)] (initState [])).map (fun s => s.tape 0) =
      some (260 % 256) ∧
    (execute 2 [Instruction.Sub (260 % 256)] (initState [])).map (fun s => s.tape 0) =
      some ((256 - 260 % 256) % 256)) :=
  ⟨by decide, inc_dec_runs_collapse_mod256 260 (by decide)⟩

/-- C8: the compiled pipeline of either reset-idiom source is the single
ResetCell instruction, and executing ResetCell from any state with any
initial cell value leaves the current cell at exactly 0 and the pointer
unchanged. -/
theorem reset_idiom_zeroes_cell (t : Nat → Nat) (p : Nat) (inp out : List Nat)
    (dumps : List (List Nat)) (hp : p < 30000) :
    optimize_opcodes (tokenize "[-]") = some [OpCode.ResetCell] ∧
    optimize_opcodes (tokenize "[+]") = some [OpCode.ResetCell] ∧
    parse [OpCode.ResetCell] = Except.ok [Instruction.ResetCell] ∧
    ∃ s2, execute 2 [Instruction.ResetCell] ⟨t, p, inp, out, dumps⟩ = some s2 ∧
      s2.tape p = 0 ∧ s2.ptr = p := by
  refine ⟨by decide, by decide, ?_, ?_⟩
  · simp only [parse]
    rw [parseGo_some rfl]
    show parseGo _ 1 [Instruction.ResetCell] 0 0 = _
    rw [parseGo_none rfl]
    rfl
  · refine ⟨{ tape := updateT t p 0, ptr := p, inp := inp, out := out, dumps := dumps },
      ?_, ?_, rfl⟩
    · show (if p < 30000 then
          execute 1 [] ⟨updateT t p 0, p, inp, out, dumps⟩ else none) = _
      rw [if_pos hp]
      rfl
    · simp [updateT]

/-- C8 witness: the statement at a nonzero initial cell (all cells 7) and
pointer 5. -/
theorem reset_idiom_zeroes_cell_witness :
    (5 : Nat) < 30000 ∧
    (optimize_opcodes (tokenize "[-]") = some [OpCode.ResetCell] ∧
    optimize_opcodes (tokenize "[+]") = some [OpCode.ResetCell] ∧
    parse [OpCode.ResetCell] = Except.ok [Instruction.ResetCell] ∧
    ∃ s2, execute 2 [Instruction.ResetCell] ⟨fun _ => 7, 5, [], [], []⟩ = some s2 ∧
      s2.tape 5 = 0 ∧ s2.ptr = 5) :=
  ⟨by decide, reset_idiom_zeroes_cell (fun _ => 7) 5 [] [] [] (by decide)⟩

/-- C9: at any position and any nesting depth, the parser maps each raw
primitive opcode (pointer steps and increments/decrements) to no instruction
at all — the scan continues with the program, stack and start unchanged —
and consequently a sequence of only primitives parses to the empty
program. -/
theorem parser_discards_primitives :
    (∀ (full : List OpCode) (i : Nat) (prog : List Instruction) (stack start : Nat)
        (op : OpCode), full[i]? = some op →
        (op = OpCode.IncrementPointer ∨ op = OpCode.DecrementPointer ∨
          op = OpCode.Increment ∨ op = OpCode.Decrement) →
        parseGo full i prog stack start = parseGo full (i+1) prog stack start) ∧
    (∀ ops : List OpCode,
        (∀ op ∈ ops, op = OpCode.IncrementPointer ∨ op = OpCode.DecrementPointer ∨
          op = OpCode.Increment ∨ op = OpCode.Decrement) →
        parse ops = Except.ok []) := by
  have step : ∀ (full : List OpCode) (i : Nat) (prog : List Instruction) (stack start : Nat)
      (op : OpCode), full[i]? = some op →
      (op = OpCode.IncrementPointer ∨ op = OpCode.DecrementPointer ∨
        op = OpCode.Increment ∨ op = OpCode.Decrement) →
      parseGo full i prog stack start = parseGo full (i+1) prog stack start := by
    intro full i prog stack start op h hop
    rw [parseGo_some h]
    by_cases hs : stack = 0 <;>
      rcases hop with rfl | rfl | rfl | rfl <;>
        simp [parseStep, hs]
  refine ⟨step, ?_⟩
  intro ops hall
  suffices h : ∀ k i prog start, ops.length - i ≤ k →
      parseGo ops i prog 0 start = Except.ok prog by
    exact h ops.length 0 [] 0 (by omega)
  intro k
  induction k with
  | zero =>
      intro i prog start hk
      rw [parseGo_none (List.getElem?_eq_none (by omega)), if_pos rfl]
  | succ k ih =>
      intro i prog start hk
      by_cases hi : i < ops.length
      · have hop : ops[i]? = some ops[i] := List.getElem?_eq_getElem hi
        have hmem : ops[i] ∈ ops := List.getElem_mem hi
        rw [step ops i prog 0 start ops[i] hop (hall _ hmem)]
        exact ih (i+1) prog start (by omega)
      · rw [parseGo_none (List.getElem?_eq_none (by omega)), if_pos rfl]

/-- C9 witness: the step statement at a single Increment at position 0, and
the whole-sequence statement on an Increment/Decrement pair. -/
theorem parser_discards_primitives_witness :
    ([OpCode.Increment][0]? = some OpCode.Increment ∧
      parseGo [OpCode.Increment] 0 [] 0 0 = parseGo [OpCode.Increment] 1 [] 0 0) ∧
    parse [OpCode.Increment, OpCode.Decrement] = Except.ok [] :=
  ⟨⟨by decide, parser_discards_primitives.1 [OpCode.Increment] 0 [] 0 0 OpCode.Increment
      (by decide) (Or.inr (Or.inr (Or.inl rfl)))⟩,
    parser_discards_primitives.2 [OpCode.Increment, OpCode.Decrement] (by decide)⟩

lemma parseGo_toErr_end {full : List OpCode} {i : Nat} {prog : List Instruction}
    {stack start : Nat} (hge : full.length ≤ i) :
    toErr (parseGo full i prog stack start) = scanFault i stack start (full.drop i) := by
  rw [parseGo_none (List.getElem?_eq_none hge), List.drop_eq_nil_of_le hge]
  by_cases hs : stack = 0
  · rw [if_pos hs]
    simp [toErr, scanFault, hs]
  · rw [if_neg hs]
    simp [toErr, scanFault, hs]

lemma scanDepth_append_some : ∀ (xs ys : List OpCode) (d e : Nat),
    scanDepth d xs = some e → scanDepth d (xs ++ ys) = scanDepth e ys := by
  intro xs
  induction xs with
  | nil =>
      intro ys d e h
      simp only [scanDepth] at h
      injection h with h
      subst h
      rfl
  | cons x xs ih =>
      intro ys d e h
      cases x <;> try exact ih ys d e h
      case LoopBegin => exact ih ys (d+1) e h
      case LoopEnd =>
        have h' : (if d = 0 then none else scanDepth (d-1) xs) = some e := h
        show (if d = 0 then none else scanDepth (d-1) (xs ++ ys)) = scanDepth e ys
        by_cases hd : d = 0
        · rw [if_pos hd] at h'
          exact Option.noConfusion h'
        · rw [if_neg hd] at h' ⊢
          exact ih ys (d-1) e h'

lemma scanFault_none_iff : ∀ (ops : List OpCode) (i stack start : Nat),
    scanFault i stack start ops = none ↔ scanDepth stack ops = some 0 := by
  intro ops
  induction ops with
  | nil =>
      intro i stack start
      by_cases hs : stack = 0 <;> simp [scanFault, scanDepth, hs]
  | cons x xs ih =>
      intro i stack start
      cases x <;> try exact ih (i+1) stack start
      case LoopBegin => exact ih (i+1) (stack+1) (if stack = 0 then i else start)
      case LoopEnd =>
        show (if stack = 0 then some (PErr.strayClose i) else scanFault (i+1) (stack-1) start xs)
            = none ↔ (if stack = 0 then none else scanDepth (stack-1) xs) = some 0
        by_cases hs : stack = 0
        · rw [if_pos hs, if_pos hs]
          simp
        · rw [if_neg hs, if_neg hs]
          exact ih (i+1) (stack-1) start

lemma parseStep_nonbracket {op : OpCode} (hop1 : op ≠ OpCode.LoopBegin)
    (hop2 : op ≠ OpCode.LoopEnd) (full : List OpCode) (i : Nat) (prog : List Instruction)
    (stack start : Nat) :
    ∃ prog2, parseStep full i prog stack start op = parseGo full (i+1) prog2 stack start := by
  cases op with
  | LoopBegin => exact absurd rfl hop1
  | LoopEnd => exact absurd rfl hop2
  | Move off =>
      by_cases hs : stack = 0
      · exact ⟨prog ++ [Instruction.Move off], by simp [parseStep, hs]⟩
      · exact ⟨prog, by simp [parseStep, hs]⟩
  | Add c =>
      by_cases hs : stack = 0
      · exact ⟨prog ++ [Instruction.Add c], by simp [parseStep, hs]⟩
      · exact ⟨prog, by simp [parseStep, hs]⟩
  | Sub c =>
      by_cases hs : stack = 0
      · exact ⟨prog ++ [Instruction.Sub c], by simp [parseStep, hs]⟩
      · exact ⟨prog, by simp [parseStep, hs]⟩
  | Write =>
      by_cases hs : stack = 0
      · exact ⟨prog ++ [Instruction.Write], by simp [parseStep, hs]⟩
      · exact ⟨prog, by simp [parseStep, hs]⟩
  | Read =>
      by_cases hs : stack = 0
      · exact ⟨prog ++ [Instruction.Read], by simp [parseStep, hs]⟩
      · exact ⟨prog, by simp [parseStep, hs]⟩
  | ResetCell =>
      by_cases hs : stack = 0
      · exact ⟨prog ++ [Instruction.ResetCell], by simp [parseStep, hs]⟩
      · exact ⟨prog, by simp [parseStep, hs]⟩
  | ScanCells b =>
      by_cases hs : stack = 0
      · exact ⟨prog ++ [Instruction.ScanCells b], by simp [parseStep, hs]⟩
      · exact ⟨prog, by simp [parseStep, hs]⟩
  | TapeState =>
      by_cases hs : stack = 0
      · exact ⟨prog ++ [Instruction.TapeState], by simp [parseStep, hs]⟩
      · exact ⟨prog, by simp [parseStep, hs]⟩
  | IncrementPointer =>
      by_cases hs : stack = 0
      · exact ⟨prog, by simp [parseStep, hs]⟩
      · exact ⟨prog, by simp [parseStep, hs]⟩
  | DecrementPointer =>
      by_cases hs : stack = 0
      · exact ⟨prog, by simp [parseStep, hs]⟩
      · exact ⟨prog, by simp [parseStep, hs]⟩
  | Increment =>
      by_cases hs : stack = 0
      · exact ⟨prog, by simp [parseStep, hs]⟩
      · exact ⟨prog, by simp [parseStep, hs]⟩
  | Decrement =>
      by_cases hs : stack = 0
      · exact ⟨prog, by simp [parseStep, hs]⟩
      · exact ⟨prog, by simp [parseStep, hs]⟩

lemma scanFault_nonbracket {op : OpCode} (hop1 : op ≠ OpCode.LoopBegin)
    (hop2 : op ≠ OpCode.LoopEnd) (i stack start : Nat) (rest : List OpCode) :
    scanFault i stack start (op :: rest) = scanFault (i+1) stack start rest := by
  cases op <;> first
    | exact absurd rfl hop1
    | exact absurd rfl hop2
    | rfl

lemma scanDepth_nonbracket {op : OpCode} (hop1 : op ≠ OpCode.LoopBegin)
    (hop2 : op ≠ OpCode.LoopEnd) (d : Nat) (rest : List OpCode) :
    scanDepth d (op :: rest) = scanDepth d rest := by
  cases op <;> first
    | exact absurd rfl hop1
    | exact absurd rfl hop2
    | rfl

lemma seg_succ {full : List OpCode} {i start : Nat} (hi : i < full.length)
    (hlt : start + 1 ≤ i) :
    (full.drop (start+1)).take (i + 1 - (start+1)) =
      (full.drop (start+1)).take (i - (start+1)) ++ [full[i]] := by
  have hlen : i - (start+1) < (full.drop (start+1)).length := by
    rw [List.length_drop]
    omega
  have := List.take_concat_get' (full.drop (start+1)) (i - (start+1)) hlen
  rw [show i + 1 - (start+1) = (i - (start+1)) + 1 from by omega, ← this]
  congr 2
  rw [List.getElem_drop]
  congr 1
  omega

lemma parseGo_toErr : ∀ (N : Nat) (full : List OpCode), full.length ≤ N →
    ∀ (k i : Nat), full.length - i ≤ k →
    ∀ (prog : List Instruction) (stack start : Nat),
    (stack ≠ 0 → start < i ∧
      scanDepth 0 ((full.drop (start+1)).take (i - (start+1))) = some (stack - 1)) →
    toErr (parseGo full i prog stack start) = scanFault i stack start (full.drop i) := by
  intro N
  induction N with
  | zero =>
      intro full hN k i hk prog stack start hinv
      exact parseGo_toErr_end (by omega)
  | succ N ihN =>
      intro full hN k
      induction k with
      | zero =>
          intro i hk prog stack start hinv
          exact parseGo_toErr_end (by omega)
      | succ k ihk =>
          intro i hk prog stack start hinv
          by_cases hi : i < full.length
          case neg => exact parseGo_toErr_end (by omega)
          have hop : full[i]? = some full[i] := List.getElem?_eq_getElem hi
          rw [parseGo_some hop, List.drop_eq_getElem_cons hi]
          by_cases hLB : full[i] = OpCode.LoopBegin
          · rw [hLB]
            by_cases hs : stack = 0
            · subst hs
              show toErr (parseGo full (i+1) prog 1 i) =
                scanFault (i+1) 1 i (full.drop (i+1))
              refine ihk (i+1) (by omega) prog 1 i ?_
              intro h1
              refine ⟨by omega, ?_⟩
              rw [show i + 1 - (i + 1) = 0 from by omega]
              rfl
            · obtain ⟨hlt, hseg⟩ := hinv hs
              simp only [parseStep]
              rw [if_neg hs]
              have hrhs : scanFault i stack start (OpCode.LoopBegin :: full.drop (i+1)) =
                  scanFault (i+1) (stack+1) start (full.drop (i+1)) := by
                show scanFault (i+1) (stack+1) (if stack = 0 then i else start) _ = _
                rw [if_neg hs]
              rw [hrhs]
              show toErr (parseGo full (i+1) prog (stack+1) start) = _
              refine ihk (i+1) (by omega) prog (stack+1) start ?_
              intro h1
              refine ⟨by omega, ?_⟩
              rw [seg_succ hi (by omega), hLB,
                scanDepth_append_some _ _ _ _ hseg]
              show scanDepth (stack - 1 + 1) [] = some (stack + 1 - 1)
              rw [show stack - 1 + 1 = stack from by omega]
              rfl
          by_cases hLE : full[i] = OpCode.LoopEnd
          · rw [hLE]
            by_cases hs : stack = 0
            · subst hs
              rfl
            · obtain ⟨hlt, hseg⟩ := hinv hs
              by_cases h1 : stack = 1
              · subst h1
                have hinlen : ((full.drop (start+1)).take (i - (start+1))).length ≤ N := by
                  rw [List.length_take, List.length_drop]
                  omega
                have hbal : scanDepth 0 ((full.drop (start+1)).take (i - (start+1))) = some 0 :=
                  hseg
                have hin := ihN ((full.drop (start+1)).take (i - (start+1))) hinlen
                  ((full.drop (start+1)).take (i - (start+1))).length 0 (by omega) [] 0 0
                  (fun h => absurd rfl h)
                rw [List.drop_zero] at hin
                have hnone : scanFault 0 0 0 ((full.drop (start+1)).take (i - (start+1))) = none :=
                  (scanFault_none_iff _ 0 0 0).mpr hbal
                rw [hnone] at hin
                obtain ⟨prog2, hok⟩ :
                    ∃ p2, parseGo ((full.drop (start+1)).take (i - (start+1))) 0 [] 0 0 =
                      Except.ok p2 := by
                  cases hpi : parseGo ((full.drop (start+1)).take (i - (start+1))) 0 [] 0 0 with
                  | ok p => exact ⟨p, rfl⟩
                  | error e =>
                      rw [hpi] at hin
                      exact Option.noConfusion hin
                show toErr (match parseGo ((full.drop (start+1)).take (i - (start+1))) 0 [] 0 0 with
                  | Except.ok inner =>
                      parseGo full (i+1) (prog ++ [Instruction.Loop inner]) 0 start
                  | Except.error e => Except.error e) =
                  scanFault (i+1) 0 start (full.drop (i+1))
                rw [hok]
                show toErr (parseGo full (i+1) (prog ++ [Instruction.Loop prog2]) 0 start) = _
                exact ihk (i+1) (by omega) _ 0 start (fun h => absurd rfl h)
              · simp only [parseStep]
                rw [if_neg hs, if_neg h1]
                have hrhs : scanFault i stack start (OpCode.LoopEnd :: full.drop (i+1)) =
                    scanFault (i+1) (stack-1) start (full.drop (i+1)) := by
                  show (if stack = 0 then some (PErr.strayClose i)
                    else scanFault (i+1) (stack-1) start (full.drop (i+1))) = _
                  rw [if_neg hs]
                rw [hrhs]
                show toErr (parseGo full (i+1) prog (stack-1) start) = _
                refine ihk (i+1) (by omega) prog (stack-1) start ?_
                intro h2
                refine ⟨by omega, ?_⟩
                rw [seg_succ hi (by omega), hLE,
                  scanDepth_append_some _ _ _ _ hseg]
                show (if stack - 1 = 0 then none else scanDepth (stack - 1 - 1) []) =
                  some (stack - 1 - 1)
                rw [if_neg (by omega)]
                rfl
          obtain ⟨prog2, hps⟩ := parseStep_nonbracket hLB hLE full i prog stack start
          rw [hps, scanFault_nonbracket hLB hLE]
          refine ihk (i+1) (by omega) prog2 stack start ?_
          intro h2
          obtain ⟨hlt, hseg⟩ := hinv h2
          refine ⟨by omega, ?_⟩
          rw [seg_succ hi (by omega), scanDepth_append_some _ _ _ _ hseg,
            scanDepth_nonbracket hLB hLE]
          rfl

lemma parse_ok_of_balanced (ops : List OpCode) (h : Balanced ops) :
    ∃ prog, parse ops = Except.ok prog := by
  have hm : toErr (parse ops) = scanFault 0 0 0 ops := by
    have := parseGo_toErr ops.length ops le_rfl ops.length 0 (by omega) [] 0 0
      (fun hh => absurd rfl hh)
    rwa [List.drop_zero] at this
  rw [(scanFault_none_iff ops 0 0 0).mpr h] at hm
  cases hp : parse ops with
  | ok p => exact ⟨p, rfl⟩
  | error e =>
      rw [hp] at hm
      exact Option.noConfusion hm

/-- C4: parse fails with exactly the faults described by the specification
scan (specFault): unmatched-closing at the index of a LoopEnd met at nesting
0, unmatched-opening at the recorded outermost unmatched LoopBegin when
nesting is nonzero at the end; in particular a lone LoopEnd faults as
unmatched-closing at 0, a lone LoopBegin as unmatched-opening at 0, and
every balanced sequence parses without fault. -/
theorem parse_bracket_fault_characterization :
    (∀ (ops : List OpCode) (e : PErr), parse ops = Except.error e ↔ specFault ops = some e) ∧
    parse [OpCode.LoopEnd] = Except.error (PErr.strayClose 0) ∧
    parse [OpCode.LoopBegin] = Except.error (PErr.strayOpen 0) ∧
    (∀ ops : List OpCode, Balanced ops → ∃ prog, parse ops = Except.ok prog) := by
  have main : ∀ ops : List OpCode, toErr (parse ops) = specFault ops := by
    intro ops
    have := parseGo_toErr ops.length ops le_rfl ops.length 0 (by omega) [] 0 0
      (fun h => absurd rfl h)
    rw [List.drop_zero] at this
    exact this
  refine ⟨?_, ?_, ?_, fun ops h => parse_ok_of_balanced ops h⟩
  · intro ops e
    constructor
    · intro h
      have hm := main ops
      rw [h] at hm
      exact hm.symm ▸ rfl
    · intro h
      have hm := main ops
      rw [h] at hm
      cases hp : parse ops with
      | ok p =>
          rw [hp] at hm
          exact Option.noConfusion hm
      | error e2 =>
          rw [hp] at hm
          injection hm with hm
          rw [hm]
  · simp only [parse]
    rw [parseGo_some rfl]
    rfl
  · simp only [parse]
    rw [parseGo_some rfl]
    show parseGo [OpCode.LoopBegin] 1 [] 1 0 = _
    rw [parseGo_none rfl]
    rfl

/-- C4 witness: the error characterization at a concrete stray-close input
and the no-fault statement at a concrete balanced bracket pair. -/
theorem parse_bracket_fault_characterization_witness :
    (parse [OpCode.LoopEnd, OpCode.Write] = Except.error (PErr.strayClose 0) ↔
      specFault [OpCode.LoopEnd, OpCode.Write] = some (PErr.strayClose 0)) ∧
    Balanced [OpCode.LoopBegin, OpCode.Write, OpCode.LoopEnd] ∧
    ∃ prog, parse [OpCode.LoopBegin, OpCode.Write, OpCode.LoopEnd] = Except.ok prog :=
  ⟨parse_bracket_fault_characterization.1 [OpCode.LoopEnd, OpCode.Write] (PErr.strayClose 0),
    by decide,
    parse_bracket_fault_characterization.2.2.2 [OpCode.LoopBegin, OpCode.Write, OpCode.LoopEnd]
      (by decide)⟩

lemma tokenize_no_collapsible {src : String}
    (h : ∀ c ∈ src.data, c ≠ '+' ∧ c ≠ '-' ∧ c ≠ '<' ∧ c ≠ '>') :
    ∀ op ∈ tokenize src, op ≠ OpCode.Increment ∧ op ≠ OpCode.Decrement ∧
      op ≠ OpCode.IncrementPointer ∧ op ≠ OpCode.DecrementPointer := by
  intro op hop
  rw [tokenize, List.mem_filterMap] at hop
  obtain ⟨c, hc, htc⟩ := hop
  obtain ⟨h1, h2, h3, h4⟩ := h c hc
  unfold tokChar at htc
  split_ifs at htc <;>
    first
      | exact absurd (by assumption : c = '>') h4
      | exact absurd (by assumption : c = '<') h3
      | exact absurd (by assumption : c = '+') h1
      | exact absurd (by assumption : c = '-') h2
      | exact Option.noConfusion htc
      | (injection htc with e
         subst e
         decide)

lemma optStepAt_neutral {ops : List OpCode}
    (hall : ∀ op ∈ ops, op ≠ OpCode.Increment ∧ op ≠ OpCode.Decrement ∧
      op ≠ OpCode.IncrementPointer ∧ op ≠ OpCode.DecrementPointer)
    {i : Nat} (hi : i < ops.length) :
    optStepAt ops i = some (ops, i + 1) := by
  have hop : ops[i]? = some ops[i] := List.getElem?_eq_getElem hi
  have hmem := hall ops[i] (List.getElem_mem hi)
  have hnext : ∀ (x : OpCode), ops[i+1]? = some x →
      x ≠ OpCode.Increment ∧ x ≠ OpCode.Decrement ∧
        x ≠ OpCode.IncrementPointer ∧ x ≠ OpCode.DecrementPointer :=
    fun x hx => hall x (List.getElem?_mem hx)
  simp only [optStepAt, hop]
  cases hx : ops[i] with
  | LoopBegin =>
      have hg1 : ¬(i + 2 < ops.length ∧
          (ops[i+1]? = some OpCode.Decrement ∨ ops[i+1]? = some OpCode.Increment) ∧
          ops[i+2]? = some OpCode.LoopEnd) := by
        rintro ⟨-, hc, -⟩
        rcases hc with hc | hc
        · exact absurd rfl (hnext _ hc).2.1
        · exact absurd rfl (hnext _ hc).1
      have hg2 : ¬(i + 2 < ops.length ∧
          (ops[i+1]? = some OpCode.DecrementPointer ∨ ops[i+1]? = some OpCode.IncrementPointer) ∧
          ops[i+2]? = some OpCode.LoopEnd) := by
        rintro ⟨-, hc, -⟩
        rcases hc with hc | hc
        · exact absurd rfl (hnext _ hc).2.2.2
        · exact absurd rfl (hnext _ hc).2.2.1
      rw [if_neg hg1, if_neg hg2]
  | Increment => rw [hx] at hmem; exact absurd rfl hmem.1
  | Decrement => rw [hx] at hmem; exact absurd rfl hmem.2.1
  | IncrementPointer => rw [hx] at hmem; exact absurd rfl hmem.2.2.1
  | DecrementPointer => rw [hx] at hmem; exact absurd rfl hmem.2.2.2
  | Move off => rfl
  | Add c => rfl
  | Sub c => rfl
  | Write => rfl
  | Read => rfl
  | LoopEnd => rfl
  | ResetCell => rfl
  | ScanCells b => rfl
  | TapeState => rfl

lemma optLoop_neutral {ops : List OpCode}
    (hall : ∀ op ∈ ops, op ≠ OpCode.Increment ∧ op ≠ OpCode.Decrement ∧
      op ≠ OpCode.IncrementPointer ∧ op ≠ OpCode.DecrementPointer) :
    ∀ (fuel i : Nat), i ≤ ops.length → ops.length + 1 - i ≤ fuel →
      optLoop fuel ops i = some ops := by
  intro fuel
  induction fuel with
  | zero =>
      intro i h1 h2
      omega
  | succ fuel ih =>
      intro i h1 h2
      show optLoop (fuel + 1) ops i = some ops
      simp only [optLoop]
      by_cases hi : i < ops.length
      · rw [if_pos hi, optStepAt_neutral hall hi]
        exact ih (i+1) (by omega) (by omega)
      · rw [if_neg hi]

/-- C1 counterexample: on the bracket-balanced source consisting of one
increment, the un-optimized pipeline (tokenize then parse, skipping the
optimizer) compiles to the empty program because the parser discards raw
primitives, while the full pipeline compiles to a program that adds 1 to
cell 0; the two executions end with different tapes, so the pipelines are
not behaviorally equivalent. -/
theorem pipelines_differ_on_plus :
    Balanced (tokenize "+") ∧
    parse (tokenize "+") = Except.ok [] ∧
    (optimize_opcodes (tokenize "+")).map parse = some (Except.ok [Instruction.Add 1]) ∧
    (execute 1 [] (initState [])).map (fun s => s.tape 0) = some 0 ∧
    (execute 2 [Instruction.Add 1] (initState [])).map (fun s => s.tape 0) = some 1 ∧
    (0 : Nat) ≠ 1 := by
  have htok : tokenize "+" = [OpCode.Increment] := by decide
  have hparse1 : parse [OpCode.Increment] = Except.ok [] := by
    simp only [parse]
    rw [parseGo_some rfl]
    show parseGo _ 1 [] 0 0 = _
    rw [parseGo_none rfl]
    rfl
  have hopt : optimize_opcodes (tokenize "+") = some [OpCode.Add 1] := by decide
  have hparse2 : parse [OpCode.Add 1] = Except.ok [Instruction.Add 1] := by
    simp only [parse]
    rw [parseGo_some rfl]
    show parseGo _ 1 [Instruction.Add 1] 0 0 = _
    rw [parseGo_none rfl]
    rfl
  refine ⟨by decide, ?_, ?_, by decide, by decide, by decide⟩
  · rw [htok, hparse1]
  · rw [hopt]
    show some (parse [OpCode.Add 1]) = _
    rw [hparse2]

/-- C1 as amended: the two pipelines agree (and are therefore trivially
behaviorally equivalent) for every bracket-balanced source containing none
of the four collapsible symbols: on such sources the optimizer is the
identity, so both pipelines produce the very same program.  On sources with
collapsible symbols the equivalence fails (see the counterexample), because
the parser silently discards the raw primitive opcodes that only the
optimizer would have turned into Move/Add/Sub. -/
theorem pipelines_agree_without_collapsible_ops (src : String)
    (hchar : ∀ c ∈ src.data, c ≠ '+' ∧ c ≠ '-' ∧ c ≠ '<' ∧ c ≠ '>')
    (hbal : Balanced (tokenize src)) :
    optimize_opcodes (tokenize src) = some (tokenize src) ∧
    ∃ prog, parse (tokenize src) = Except.ok prog ∧
      (optimize_opcodes (tokenize src)).map parse = some (Except.ok prog) := by
  have hid : optimize_opcodes (tokenize src) = some (tokenize src) := by
    unfold optimize_opcodes
    exact optLoop_neutral (tokenize_no_collapsible hchar) _ 0 (by omega) (by omega)
  obtain ⟨prog, hok⟩ := parse_ok_of_balanced _ hbal
  refine ⟨hid, prog, hok, ?_⟩
  rw [hid]
  show some (parse (tokenize src)) = _
  rw [hok]

/-- C1 witness: the amended statement at the balanced, collapsible-free
source consisting of a loop around one Write. -/
theorem pipelines_agree_without_collapsible_ops_witness :
    (∀ c ∈ "[.]".data, c ≠ '+' ∧ c ≠ '-' ∧ c ≠ '<' ∧ c ≠ '>') ∧
    Balanced (tokenize "[.]") ∧
    (optimize_opcodes (tokenize "[.]") = some (tokenize "[.]") ∧
      ∃ prog, parse (tokenize "[.]") = Except.ok prog ∧
        (optimize_opcodes (tokenize "[.]")).map parse = some (Except.ok prog)) :=
  ⟨by decide, by decide,
    pipelines_agree_without_collapsible_ops "[.]" (by decide) (by decide)⟩

end Brainfuckers
